import Mathlib

/-!
Verification of the async-orchestration behaviors of the simple-ai browser
console.  Each definition is a shallow embedding of a function of the
repository (file and line references in the doc comments); theorems below
settle the frozen claims about streaming accumulation, live audio
scheduling, the video job poller, error classification, grounding-source
deduplication, history eviction and script chunking.
-/

namespace SimpleAI

/-! ### Streaming session accumulation

`ChatView.tsx` lines 196-205 (chat streaming modes) and lines 1096-1101
(ScriptGenieView.handleSubmit) both run
`for await (const chunk of stream) { buffer += chunk.text; ... }`.
-/

/-- One iteration of the streaming loops: `fullResponse += chunkText`
(ChatView.tsx line 199) and `scriptContent += text` (line 1099). -/
def streamStep (buffer chunk : String) : String := buffer ++ chunk

/-- The complete streaming loop: chunks are applied to the buffer in
delivery order, starting from the empty buffer (`let fullResponse = ''`,
ChatView.tsx line 196). -/
def streamAccumulate (chunks : List String) : String :=
  chunks.foldl streamStep ""

/-- The streaming loops of `handleSendMessage` (ChatView.tsx lines 197-205)
and of the ScriptGenie `handleSubmit` (lines 1097-1101) consult no
cancellation flag: no such flag exists in the source, and every chunk the
transport delivers is appended.  The extra argument models a user
cancellation request arriving after that many chunks; the code never reads
it. -/
def streamLoopWithCancelRequest (chunks : List String)
    (_cancelRequestedAfter : Nat) : String :=
  chunks.foldl streamStep ""

/-- Helper: folding append from an arbitrary initial buffer. -/
lemma foldl_streamStep_eq (chunks : List String) :
    ∀ init : String, chunks.foldl streamStep init = init ++ chunks.foldr (· ++ ·) "" := by
  induction chunks with
  | nil => intro init; simp [streamStep]
  | cons c cs ih =>
      intro init
      simp only [List.foldl_cons, List.foldr_cons, streamStep, ih (init ++ c),
        String.append_assoc]

/-! ### Capped history records

`saveScriptToHistory` (ChatView.tsx lines 955-969) runs
`[newEntry, ...prevHistory].slice(0, 10)`; the image-generation and
image/video-analysis histories (ImageGenieView) run the same
`[newEntry, ...history].slice(0, 10)`. -/

/-- Model of `[newEntry, ...prevHistory].slice(0, 10)`: prepend the new entry and
keep the first ten. -/
def saveCappedHistory {α : Type} (newEntry : α) (prevHistory : List α) : List α :=
  (newEntry :: prevHistory).take 10

/-! ### API gateway facade: error classification

`getGenAI` (service module lines 6-12) and `handleApiError` (lines 14-20).
A vendor error carries a message and an optional HTTP status. -/

structure VendorError where
  message : String
  status : Option Nat
deriving Repr, DecidableEq

/-- The local error taxonomy: `ApiKeyError` (errors module) or the vendor
error rethrown unchanged. -/
inductive ApiError where
  | apiKeyError (msg : String)
  | vendor (e : VendorError)
deriving Repr, DecidableEq

/-- JS `hay.includes(needle)`: substring containment. -/
def strIncludes (hay needle : String) : Bool :=
  (List.range (hay.toList.length + 1)).any
    (fun i => needle.toList.isPrefixOf (hay.toList.drop i))

def needleApiKey : String := "API key"
def needlePermissionDenied : String := "permission denied"
def needleWasNotFound : String := "was not found"
def invalidKeyMsg : String := "API key is invalid or has insufficient permissions."
def missingKeyMsg : String := "API key is missing."

/-- Example vendor message of a network failure (none of the matched
substrings occur in it). -/
def needleNetworkTimeout : String := "network timeout"

/-- Example vendor message reporting a missing resource. -/
def notFoundExampleMsg : String := "The requested model was not found."

/-- Example vendor message of a quota failure. -/
def quotaExampleMsg : String := "quota exceeded"

/-- The test of `handleApiError` (service module line 16):
`error.message.includes('API key') || error.message.includes('permission
denied') || error.message.includes("was not found") || (error.status &&
error.status >= 400 && error.status < 500)`.  An absent status (and the
falsy status 0) fails the status test. -/
def isApiKeyCondition (e : VendorError) : Bool :=
  strIncludes e.message needleApiKey ||
  strIncludes e.message needlePermissionDenied ||
  strIncludes e.message needleWasNotFound ||
  (match e.status with
   | some s => decide (400 ≤ s) && decide (s < 500)
   | none => false)

/-- Model of `handleApiError` (service module lines 14-20).  It never returns
normally: it throws an `ApiKeyError` when the condition holds and rethrows
the original error otherwise.  The returned value is the thrown error. -/
def handleApiError (e : VendorError) : ApiError :=
  if isApiKeyCondition e then .apiKeyError invalidKeyMsg else .vendor e

/-- Model of `getGenAI` (service module lines 6-12): throws `ApiKeyError` when
`process.env.API_KEY` is absent (or the falsy empty string). -/
def getGenAI (apiKey : Option String) : Except ApiError Unit :=
  match apiKey with
  | none => .error (.apiKeyError missingKeyMsg)
  | some k => if k = "" then .error (.apiKeyError missingKeyMsg) else .ok ()

/-- Model of `transcribeAudio` (service module lines 203-225), as a function of the
underlying vendor call's outcome.  On a vendor failure the catch block runs
`handleApiError(error); return '';` -- but `handleApiError` always throws,
so the `return ''` is unreachable and the thrown error propagates. -/
def transcribeAudio (vendorResult : Except VendorError String) :
    Except ApiError String :=
  match vendorResult with
  | .ok text => .ok text
  | .error e => .error (handleApiError e)

/-- The claim's classification condition, following the spec's words: the
vendor reports an authorization/permission problem (an API-key or
permission-denied message) or an HTTP client-error status 400-499. -/
def claimCredentialCond (e : VendorError) : Prop :=
  strIncludes e.message needleApiKey = true ∨
  strIncludes e.message needlePermissionDenied = true ∨
  (∃ s, e.status = some s ∧ 400 ≤ s ∧ s < 500)

/-- The amended classification condition: additionally, a vendor message
reporting that a resource `was not found` is classified as a credential
error even without a client-error status. -/
def amendedCredentialCond (e : VendorError) : Prop :=
  strIncludes e.message needleApiKey = true ∨
  strIncludes e.message needlePermissionDenied = true ∨
  strIncludes e.message needleWasNotFound = true ∨
  (∃ s, e.status = some s ∧ 400 ≤ s ∧ s < 500)

lemma isApiKeyCondition_iff (e : VendorError) :
    isApiKeyCondition e = true ↔ amendedCredentialCond e := by
  unfold isApiKeyCondition amendedCredentialCond
  rcases e with ⟨msg, st⟩
  rcases st with _ | s <;>
    simp [Bool.or_eq_true, decide_eq_true_eq, and_assoc, or_assoc]

/-! ### The long-running video job poller

`pollOperation` (VideoFactoryView.tsx lines 89-115):
`while (!currentOperation.done) { sleep; currentOperation = await
checkVideoOperation(...); surface progress; }` with a rethrowing catch
around the poll call, then `setProgress(100)` after the loop. -/

/-- The observable part of a `GenerateVideosOperation`: the `done` flag and
the optional `metadata.progressPercent` / `metadata.state` fields. -/
structure VideoOp where
  done : Bool
  progressPercent : Option Nat
  state : Option String
deriving Repr, DecidableEq

/-- One poll answer from the vendor: the updated operation, or a thrown
error. -/
abbrev PollResp := Except String VideoOp

/-- How `pollOperation`'s wait loop ends: the final done operation, the
error thrown by a failed poll call (rethrown by the catch block), or --
when the modelled vendor response list runs out while the operation is not
done -- still waiting on the next poll. -/
inductive PollOutcome where
  | finished (final : VideoOp)
  | failed (e : String)
  | waiting
deriving Repr, DecidableEq

/-- The wait loop of `pollOperation`, run against the successive vendor
responses; returns the outcome together with the number of poll calls
made. -/
def pollRun (op : VideoOp) (resps : List PollResp) : PollOutcome × Nat :=
  if op.done then (.finished op, 0)
  else
    match resps with
    | [] => (.waiting, 0)
    | .error e :: _ => (.failed e, 1)
    | .ok op' :: rest =>
        let r := pollRun op' rest
        (r.1, r.2 + 1)

lemma pollRun_done {op : VideoOp} (resps : List PollResp)
    (hd : op.done = true) : pollRun op resps = (.finished op, 0) := by
  rw [pollRun.eq_def, if_pos hd]

lemma pollRun_nil {op : VideoOp} (hd : op.done = false) :
    pollRun op [] = (.waiting, 0) := by
  rw [pollRun.eq_def, if_neg (by simp [hd])]

lemma pollRun_error {op : VideoOp} {e : String} (rest : List PollResp)
    (hd : op.done = false) : pollRun op (.error e :: rest) = (.failed e, 1) := by
  rw [pollRun.eq_def, if_neg (by simp [hd])]

lemma pollRun_ok {op op' : VideoOp} (rest : List PollResp)
    (hd : op.done = false) :
    pollRun op (.ok op' :: rest) =
      ((pollRun op' rest).1, (pollRun op' rest).2 + 1) := by
  rw [pollRun.eq_def, if_neg (by simp [hd])]

/-- The progress value a successful poll surfaces: `if
(currentOperation.metadata?.progressPercent) setProgress(percent)`
(lines 97-99).  JS truthiness: an absent or zero `progressPercent` skips
the branch. -/
def surfacedProgress (op : VideoOp) : List Nat :=
  match op.progressPercent with
  | some p => if p ≠ 0 then [p] else []
  | none => []

/-- The sequence of `setProgress` calls made by `pollOperation`: one per
successful poll whose `progressPercent` is truthy, and the final
`setProgress(100)` (line 112) once the loop sees `done`. -/
def pollProgressTrace (op : VideoOp) (resps : List PollResp) : List Nat :=
  if op.done then [100]
  else
    match resps with
    | [] => []
    | .error _ :: _ => []
    | .ok op' :: rest => surfacedProgress op' ++ pollProgressTrace op' rest

/-- The truthy `progressPercent` values of the successful vendor responses,
in order. -/
def vendorProgressValues (resps : List PollResp) : List Nat :=
  resps.flatMap (fun r => match r with
    | .ok op => surfacedProgress op
    | .error _ => [])

/-! ### Live duplex playback scheduling

`onmessage` in LiveTalkView.tsx lines 207-219:
`nextStartTime = max(nextStartTime, outputCtx.currentTime);
source.playbackRate.value = rate; source.start(nextStartTime);
nextStartTime += audioBuffer.duration / rate;` -/

/-- Schedule one decoded audio chunk: clamp the next-start cursor up to the
playback clock's current time, start the chunk there, and advance the
cursor by the chunk's effective duration.  Returns the scheduled start time
and the new cursor. -/
def scheduleChunk (cursor now dur rate : ℚ) : ℚ × ℚ :=
  let start := max cursor now
  (start, start + dur / rate)

/-- Process a sequence of model audio output chunks in delivery order; each
entry carries the playback clock's current time at its scheduling moment,
the decoded buffer's duration and the playback rate in effect.  Returns the
scheduled start times and the final cursor. -/
def scheduleAll (cursor : ℚ) : List (ℚ × ℚ × ℚ) → List ℚ × ℚ
  | [] => ([], cursor)
  | (now, dur, rate) :: rest =>
      let s := scheduleChunk cursor now dur rate
      let r := scheduleAll s.2 rest
      (s.1 :: r.1, r.2)

/-! ### Grounding-source deduplication

`generateGroundedContent` (service module lines 85-90):
`groundingChunks.map(c => c.web).filter(Boolean)
  .map(w => ({uri: w.uri, title: w.title || w.uri}))
  .filter((source, index, self) =>
     index === self.findIndex(s => s.uri === source.uri))`. -/

/-- A `web` grounding chunk as returned by the vendor: the `title` field
may be absent. -/
structure WebChunk where
  uri : String
  title : Option String
deriving Repr, DecidableEq

/-- A grounding chunk; `web` may be absent (`filter(Boolean)` drops those). -/
structure GroundingChunk where
  web : Option WebChunk
deriving Repr, DecidableEq

/-- A (uri, title) source pair. -/
structure GroundingSource where
  uri : String
  title : String
deriving Repr, DecidableEq

/-- Model of `{uri: w.uri, title: w.title || w.uri}`: JS `||` falls back to the uri
when the title is absent or the falsy empty string. -/
def toSource (w : WebChunk) : GroundingSource :=
  { uri := w.uri,
    title := match w.title with
      | none => w.uri
      | some t => if t = "" then w.uri else t }

/-- The JS dedup filter: the element at position `index` is kept exactly
when `index === self.findIndex(s => s.uri === source.uri)`. -/
def jsDedupByUri (l : List GroundingSource) : List GroundingSource :=
  (l.enum.filter
      (fun p => l.findIdx (fun t => t.uri == p.2.uri) == p.1)).map Prod.snd

/-- The full grounding-source pipeline of `generateGroundedContent`. -/
def groundingSources (chunks : List GroundingChunk) : List GroundingSource :=
  jsDedupByUri ((chunks.filterMap (fun c => c.web)).map toSource)

/-- Deduplication by URI as the spec words it: keep each URI's first
occurrence (with its title), in order of first appearance. -/
def dedupFirstByUri : List GroundingSource → List GroundingSource
  | [] => []
  | s :: rest =>
      s :: dedupFirstByUri (rest.filter (fun t => t.uri != s.uri))
termination_by l => l.length
decreasing_by
  simpa using Nat.lt_succ_of_le (rest.length_filter_le _)

/-! ### Script chunking

`chunkText` (ChatView.tsx lines 622-646).  Strings are modelled as lists
of characters so that `lastIndexOf`, `substring` and `trim` are explicit.
The while loop is given `remaining.length` units of fuel; every iteration
removes at least one character, so this fuel suffices (proved below). -/

/-- JS `s.trim()`: drop whitespace from both ends. -/
def jsTrim (s : List Char) : List Char :=
  ((s.dropWhile Char.isWhitespace).reverse.dropWhile Char.isWhitespace).reverse

/-- JS `s.lastIndexOf(pat)` for a non-empty pattern: the greatest position
where `pat` starts, if any. -/
def jsLastIndexOf (s pat : List Char) : Option Nat :=
  (List.range (s.length + 1)).reverse.find?
    (fun i => pat.isPrefixOf (s.drop i))

/-- Lines 634-640: try `'\n\n'`, then `'. '`, then `' '`; fall back to
`maxLength` when nothing is found or the found index is below
`maxLength / 2` (JS float division: `i < maxLength / 2` iff
`2 * i < maxLength`). -/
def splitIndexOf (maxLength : Nat) (chunk : List Char) : Nat :=
  match jsLastIndexOf chunk ['\n', '\n'] <|>
        jsLastIndexOf chunk ['.', ' '] <|>
        jsLastIndexOf chunk [' '] with
  | none => maxLength
  | some i => if 2 * i < maxLength then maxLength else i

/-- The while loop of `chunkText` (lines 627-644), with explicit fuel. -/
def chunkTextLoop (maxLength : Nat) : Nat → List Char → List (List Char)
  | 0, _ => []
  | fuel + 1, remaining =>
      if remaining.length = 0 then []
      else if remaining.length ≤ maxLength then [remaining]
      else
        let splitIndex := splitIndexOf maxLength (remaining.take maxLength)
        jsTrim (remaining.take (splitIndex + 1)) ::
          chunkTextLoop maxLength fuel (jsTrim (remaining.drop (splitIndex + 1)))

/-- Model of `chunkText` (lines 622-646): empty input yields no chunks; otherwise
run the loop and keep the non-empty chunks (`filter(c => c.length > 0)`,
line 645). -/
def chunkText (text : List Char) (maxLength : Nat) : List (List Char) :=
  if text.length = 0 then []
  else (chunkTextLoop maxLength text.length text).filter
      (fun c => decide (0 < c.length))

/-! ## Theorems settling the claims -/

/-- C1: in every streaming generation exchange (chat streaming modes and
script generation), chunks delivered in order accumulate to the
concatenation C1++C2++...++Cn -- each chunk is appended at the end of the
buffer in delivery order, with no reordering and no deduplication,
regardless of chunk boundary placement (e.g. ["Hel", "lo, wor", "ld"]
accumulates to "Hello, world"). -/
theorem streaming_accumulates_concatenation :
    (∀ chunks : List String,
        streamAccumulate chunks = chunks.foldr (· ++ ·) "" ∧
        ∀ c, streamAccumulate (chunks ++ [c]) = streamAccumulate chunks ++ c) ∧
    streamAccumulate ["Hel", "lo, wor", "ld"] = "Hello, world" := by
  refine ⟨fun chunks => ⟨?_, fun c => ?_⟩, rfl⟩
  · simpa using foldl_streamStep_eq chunks ""
  · simp [streamAccumulate, List.foldl_append, streamStep]

/-- C8 counterexample: the claim predicts that after cancellation at k = 1
the buffer equals the first chunk alone; the streaming loop has no
cancellation check, so the second chunk is appended as well. -/
theorem cancelled_stream_counterexample :
    streamLoopWithCancelRequest ["Hel", "lo"] 1 = "Hello" ∧
    streamLoopWithCancelRequest ["Hel", "lo"] 1 ≠
      streamAccumulate (["Hel", "lo"].take 1) := by
  refine ⟨rfl, ?_⟩
  decide

/-- C8 amended: the chat and script streaming loops contain no cancelled
flag and no cancellation mechanism at all; whatever cancellation request is
made, every chunk the transport delivers is appended in delivery order, so
the final buffer is always the concatenation of all delivered chunks. -/
theorem stream_cancellation_is_ignored (chunks : List String) (k : Nat) :
    streamLoopWithCancelRequest chunks k = chunks.foldr (· ++ ·) "" := by
  simpa [streamLoopWithCancelRequest] using foldl_streamStep_eq chunks ""

/-- C7: saving a new entry into a history that already holds 10 entries
keeps exactly 10 entries: the new entry first, the originally last (oldest)
entry dropped, and the insertion order of the remaining entries
preserved. -/
theorem saveCappedHistory_evicts_oldest {α : Type} (e : α) (prev : List α)
    (h : prev.length = 10) :
    saveCappedHistory e prev = e :: prev.dropLast ∧
    (saveCappedHistory e prev).length = 10 := by
  constructor
  · simp [saveCappedHistory, List.take_succ_cons, List.dropLast_eq_take, h]
  · simp [saveCappedHistory, h]

/-- Witness for the history-eviction theorem at a concrete ten-entry
history. -/
theorem saveCappedHistory_evicts_oldest_witness :
    saveCappedHistory (99 : Nat) [0, 1, 2, 3, 4, 5, 6, 7, 8, 9] =
      99 :: ([0, 1, 2, 3, 4, 5, 6, 7, 8, 9] : List Nat).dropLast ∧
    (saveCappedHistory (99 : Nat) [0, 1, 2, 3, 4, 5, 6, 7, 8, 9]).length = 10 :=
  saveCappedHistory_evicts_oldest 99 _ (by decide)

/-- C4: when the underlying vendor call of `transcribeAudio` throws, the
function does not return the empty string: the catch block calls
`handleApiError`, which always throws, so the (dead) `return ''` is never
reached and an error propagates to the caller. -/
theorem transcribeAudio_propagates_vendor_failure :
    transcribeAudio (.error ⟨needleNetworkTimeout, none⟩) =
      .error (.vendor ⟨needleNetworkTimeout, none⟩) ∧
    ∀ e : VendorError, ∃ err, transcribeAudio (.error e) = .error err := by
  constructor
  · have h : handleApiError ⟨needleNetworkTimeout, none⟩ =
        .vendor ⟨needleNetworkTimeout, none⟩ := by decide
    simp [transcribeAudio, h]
  · exact fun e => ⟨handleApiError e, rfl⟩

/-- C5 counterexample: a vendor error whose message merely reports that a
resource `was not found`, with no status at all, is classified as
`ApiKeyError` by the code even though it is neither an
authorization/permission failure nor a client-error status as the claim
requires. -/
theorem credential_classification_counterexample :
    handleApiError ⟨notFoundExampleMsg, none⟩ = .apiKeyError invalidKeyMsg ∧
    ¬ claimCredentialCond ⟨notFoundExampleMsg, none⟩ := by
  constructor
  · decide
  · rintro (h | h | ⟨s, hs, -⟩)
    · exact absurd h (by decide)
    · exact absurd h (by decide)
    · exact Option.noConfusion hs

/-- C5 amended: `handleApiError` throws `ApiKeyError` exactly when the
vendor message mentions an API-key or permission problem, or reports that a
resource was not found, or the error carries an HTTP client-error status
(400-499); every other vendor failure is rethrown unchanged; and a missing
credential makes `getGenAI` throw `ApiKeyError` before any call is made. -/
theorem handleApiError_classification (e : VendorError) :
    (handleApiError e = .apiKeyError invalidKeyMsg ↔ amendedCredentialCond e) ∧
    (¬ amendedCredentialCond e → handleApiError e = .vendor e) ∧
    getGenAI none = .error (.apiKeyError missingKeyMsg) := by
  refine ⟨?_, ?_, rfl⟩
  · rw [← isApiKeyCondition_iff]
    unfold handleApiError
    cases h : isApiKeyCondition e <;> simp [h]
  · intro hn
    have hb : ¬ isApiKeyCondition e = true :=
      fun hc => hn ((isApiKeyCondition_iff e).mp hc)
    simp [handleApiError, hb]

/-- Witness for the classification theorem: a server-side failure (status
500, quota message) is rethrown unchanged. -/
theorem handleApiError_classification_witness :
    handleApiError ⟨quotaExampleMsg, some 500⟩ =
      .vendor ⟨quotaExampleMsg, some 500⟩ := by
  refine (handleApiError_classification _).2.1 ?_
  rintro (h | h | h | ⟨s, hs, -, hlt⟩)
  · exact absurd h (by decide)
  · exact absurd h (by decide)
  · exact absurd h (by decide)
  · injection hs with hs'
    omega

/-- C2: model audio chunks of durations d1, d2, d3 all received before the
first chunk finishes playing are scheduled back to back at cumulative
offsets 0, d1, d1+d2 from the first chunk's start (no gap, no overlap), and
every scheduled start time is at least the playback clock's current time at
the scheduling moment (the cursor is clamped up to the current time). -/
theorem liveAudio_gapless_scheduling (c0 t1 t2 t3 d1 d2 d3 : ℚ)
    (hd2 : 0 ≤ d2)
    (ht2 : t2 ≤ max c0 t1 + d1) (ht3 : t3 ≤ max c0 t1 + d1) :
    (scheduleAll c0 [(t1, d1, 1), (t2, d2, 1), (t3, d3, 1)]).1 =
      [max c0 t1, max c0 t1 + d1, max c0 t1 + d1 + d2] ∧
    t1 ≤ max c0 t1 ∧ t2 ≤ max c0 t1 + d1 ∧ t3 ≤ max c0 t1 + d1 + d2 := by
  have h3' : t3 ≤ max c0 t1 + d1 + d2 := ht3.trans (by linarith)
  have h2 : max (max c0 t1 + d1) t2 = max c0 t1 + d1 := max_eq_left ht2
  have h3 : max (max c0 t1 + d1 + d2) t3 = max c0 t1 + d1 + d2 := max_eq_left h3'
  refine ⟨?_, le_max_right c0 t1, ht2, h3'⟩
  simp [scheduleAll, scheduleChunk, h2, h3]

/-- Witness for the playback-scheduling theorem at concrete arrival times
and durations: three chunks of durations 2, 3, 1 arriving at times 0, 1, 2
are scheduled at 0, 2 and 5. -/
theorem liveAudio_gapless_scheduling_witness :
    ((0 : ℚ) ≤ 3) ∧ ((1 : ℚ) ≤ max (0 : ℚ) 0 + 2) ∧ ((2 : ℚ) ≤ max (0 : ℚ) 0 + 2) ∧
    (scheduleAll (0 : ℚ) [(0, 2, 1), (1, 3, 1), (2, 1, 1)]).1 =
      [max (0 : ℚ) 0, max (0 : ℚ) 0 + 2, max (0 : ℚ) 0 + 2 + 3] := by
  refine ⟨by norm_num, by norm_num, by norm_num, ?_⟩
  exact (liveAudio_gapless_scheduling 0 0 1 2 2 3 1 (by norm_num)
    (by norm_num) (by norm_num)).1

/-- C3: the wait loop of `pollOperation` exits only when a polled operation
reports done or a poll call throws.  When it finishes, the final operation
is done and no poll call is made after the one that returned it (responses
past the n-th are never consumed); when a poll throws, the error propagates
immediately -- the n-th response is the error, and no further response is
consumed (no retry). -/
theorem pollRun_exits_only_on_done_or_error (op : VideoOp)
    (resps : List PollResp) :
    (∀ f n, pollRun op resps = (.finished f, n) →
        f.done = true ∧
        ∀ extra, pollRun op (resps.take n ++ extra) = (.finished f, n)) ∧
    (∀ e n, pollRun op resps = (.failed e, n) →
        1 ≤ n ∧ resps[n - 1]? = some (.error e) ∧
        ∀ extra, pollRun op (resps.take n ++ extra) = (.failed e, n)) := by
  induction resps generalizing op with
  | nil =>
      by_cases hd : op.done
      · refine ⟨fun f n h => ?_, fun e n h => ?_⟩
        · rw [pollRun_done [] hd] at h
          simp only [Prod.mk.injEq, PollOutcome.finished.injEq] at h
          obtain ⟨rfl, rfl⟩ := h
          exact ⟨hd, fun extra => by simpa using pollRun_done extra hd⟩
        · rw [pollRun_done [] hd] at h
          simp at h
      · rw [Bool.not_eq_true] at hd
        refine ⟨fun f n h => ?_, fun e n h => ?_⟩ <;>
          · rw [pollRun_nil hd] at h
            simp at h
  | cons r rest ih =>
      by_cases hd : op.done
      · refine ⟨fun f n h => ?_, fun e n h => ?_⟩
        · rw [pollRun_done (r :: rest) hd] at h
          simp only [Prod.mk.injEq, PollOutcome.finished.injEq] at h
          obtain ⟨rfl, rfl⟩ := h
          exact ⟨hd, fun extra => by simpa using pollRun_done _ hd⟩
        · rw [pollRun_done (r :: rest) hd] at h
          simp at h
      · rw [Bool.not_eq_true] at hd
        cases r with
        | error e0 =>
            refine ⟨fun f n h => ?_, fun e n h => ?_⟩
            · rw [pollRun_error rest hd] at h
              simp at h
            · rw [pollRun_error rest hd] at h
              simp only [Prod.mk.injEq, PollOutcome.failed.injEq] at h
              obtain ⟨rfl, rfl⟩ := h
              refine ⟨le_refl 1, by simp, fun extra => ?_⟩
              simpa using pollRun_error extra hd
        | ok op' =>
            refine ⟨fun f n h => ?_, fun e n h => ?_⟩
            · rw [pollRun_ok rest hd, Prod.mk.injEq] at h
              obtain ⟨h1, h2⟩ := h
              have hPR : pollRun op' rest = (.finished f, (pollRun op' rest).2) :=
                Prod.ext h1 rfl
              obtain ⟨hdone, hextra⟩ := (ih op').1 f _ hPR
              subst h2
              refine ⟨hdone, fun extra => ?_⟩
              rw [List.take_succ_cons, List.cons_append, pollRun_ok _ hd,
                hextra extra]
            · rw [pollRun_ok rest hd, Prod.mk.injEq] at h
              obtain ⟨h1, h2⟩ := h
              have hPR : pollRun op' rest = (.failed e, (pollRun op' rest).2) :=
                Prod.ext h1 rfl
              obtain ⟨hm, hget, hextra⟩ := (ih op').2 e _ hPR
              subst h2
              obtain ⟨k, hk⟩ : ∃ k, (pollRun op' rest).2 = k + 1 :=
                ⟨(pollRun op' rest).2 - 1, (Nat.succ_pred_eq_of_pos hm).symm⟩
              refine ⟨by omega, ?_, fun extra => ?_⟩
              · rw [hk]
                simpa [hk] using hget
              · rw [List.take_succ_cons, List.cons_append, pollRun_ok _ hd,
                  hextra extra]

/-- Witness for the poller-exit theorem: starting from a not-done handle,
two successful polls reach a done handle; the error response queued behind
them is never consumed. -/
theorem pollRun_exits_witness :
    (⟨true, some 60, none⟩ : VideoOp).done = true ∧
    pollRun ⟨false, none, none⟩
        (([.ok ⟨false, some 30, none⟩, .ok ⟨true, some 60, none⟩] :
            List PollResp).take 2 ++ [.error needleNetworkTimeout]) =
      (.finished ⟨true, some 60, none⟩, 2) := by
  obtain ⟨h1, h2⟩ :=
    (pollRun_exits_only_on_done_or_error ⟨false, none, none⟩
        [.ok ⟨false, some 30, none⟩, .ok ⟨true, some 60, none⟩]).1
      ⟨true, some 60, none⟩ 2 (by decide)
  exact ⟨h1, h2 [.error needleNetworkTimeout]⟩

lemma pollProgressTrace_done {op : VideoOp} (resps : List PollResp)
    (hd : op.done = true) : pollProgressTrace op resps = [100] := by
  rw [pollProgressTrace.eq_def, if_pos hd]

lemma pollProgressTrace_nil {op : VideoOp} (hd : op.done = false) :
    pollProgressTrace op [] = [] := by
  rw [pollProgressTrace.eq_def, if_neg (by simp [hd])]

lemma pollProgressTrace_error {op : VideoOp} {e : String}
    (rest : List PollResp) (hd : op.done = false) :
    pollProgressTrace op (.error e :: rest) = [] := by
  rw [pollProgressTrace.eq_def, if_neg (by simp [hd])]

lemma pollProgressTrace_ok {op op' : VideoOp} (rest : List PollResp)
    (hd : op.done = false) :
    pollProgressTrace op (.ok op' :: rest) =
      surfacedProgress op' ++ pollProgressTrace op' rest := by
  rw [pollProgressTrace.eq_def, if_neg (by simp [hd])]

/-- The surfaced progress of one poll is empty or a single value. -/
lemma surfacedProgress_eq_nil_or_singleton (op : VideoOp) :
    surfacedProgress op = [] ∨ ∃ p, surfacedProgress op = [p] := by
  unfold surfacedProgress
  rcases op.progressPercent with _ | p
  · exact Or.inl rfl
  · by_cases hp : p ≠ 0
    · exact Or.inr ⟨p, by simp [hp]⟩
    · exact Or.inl (by simp [hp])

/-- The first surfaced progress value is either the final 100 or the first
truthy vendor-reported value. -/
lemma pollProgressTrace_head (op : VideoOp) (resps : List PollResp) :
    ∀ t, (pollProgressTrace op resps).head? = some t →
      t = 100 ∨ (vendorProgressValues resps).head? = some t := by
  induction resps generalizing op with
  | nil =>
      intro t h
      by_cases hd : op.done
      · rw [pollProgressTrace_done [] hd] at h
        simp at h
        exact Or.inl h.symm
      · rw [Bool.not_eq_true] at hd
        rw [pollProgressTrace_nil hd] at h
        simp at h
  | cons r rest ih =>
      intro t h
      by_cases hd : op.done
      · rw [pollProgressTrace_done (r :: rest) hd] at h
        simp at h
        exact Or.inl h.symm
      · rw [Bool.not_eq_true] at hd
        cases r with
        | error e =>
            rw [pollProgressTrace_error rest hd] at h
            simp at h
        | ok op' =>
            rw [pollProgressTrace_ok rest hd] at h
            have hv : vendorProgressValues (.ok op' :: rest) =
                surfacedProgress op' ++ vendorProgressValues rest := by
              simp [vendorProgressValues]
            rcases surfacedProgress_eq_nil_or_singleton op' with hsp | ⟨p, hsp⟩
            · rw [hsp] at h
              simp only [List.nil_append] at h
              rcases ih op' t h with h100 | hrest
              · exact Or.inl h100
              · refine Or.inr ?_
                rw [hv, hsp, List.nil_append]
                exact hrest
            · rw [hsp] at h
              simp only [List.cons_append, List.head?_cons,
                Option.some.injEq] at h
              refine Or.inr ?_
              rw [hv, hsp]
              simp [h]

/-- C9 counterexample: the poller surfaces the vendor-reported progress
verbatim, so a vendor that reports 50 and then 30 makes the surfaced
progress sequence decrease, contradicting the claimed monotonicity. -/
theorem pollProgress_monotone_counterexample :
    pollProgressTrace ⟨false, none, none⟩
        [.ok ⟨false, some 50, none⟩, .ok ⟨false, some 30, none⟩] = [50, 30] ∧
    ¬ List.Chain' (fun a b => a ≤ b) [50, 30] := by
  constructor
  · decide
  · simp [List.chain'_cons]

/-- C9 amended: the poller surfaces `progressPercent` verbatim (skipping
absent or zero values) and surfaces 100 on completion; the surfaced
sequence is monotonically non-decreasing provided the vendor's reported
truthy progress values are non-decreasing and at most 100 -- the code
itself enforces no monotonicity. -/
theorem pollProgress_monotone_of_vendor_monotone (op : VideoOp)
    (resps : List PollResp)
    (hchain : List.Chain' (fun a b => a ≤ b) (vendorProgressValues resps))
    (hle : ∀ p ∈ vendorProgressValues resps, p ≤ 100) :
    List.Chain' (fun a b => a ≤ b) (pollProgressTrace op resps) := by
  induction resps generalizing op with
  | nil =>
      by_cases hd : op.done
      · rw [pollProgressTrace_done [] hd]
        simp
      · rw [Bool.not_eq_true] at hd
        rw [pollProgressTrace_nil hd]
        simp
  | cons r rest ih =>
      by_cases hd : op.done
      · rw [pollProgressTrace_done (r :: rest) hd]
        simp
      · rw [Bool.not_eq_true] at hd
        cases r with
        | error e =>
            rw [pollProgressTrace_error rest hd]
            simp
        | ok op' =>
            have hv : vendorProgressValues (.ok op' :: rest) =
                surfacedProgress op' ++ vendorProgressValues rest := by
              simp [vendorProgressValues]
            rw [hv] at hchain hle
            rw [pollProgressTrace_ok rest hd]
            rcases surfacedProgress_eq_nil_or_singleton op' with hsp | ⟨p, hsp⟩
            · rw [hsp] at hchain hle ⊢
              simp only [List.nil_append] at hchain hle ⊢
              exact ih op' hchain hle
            · rw [hsp] at hchain hle ⊢
              simp only [List.cons_append, List.nil_append] at hchain hle ⊢
              rw [List.chain'_cons'] at hchain ⊢
              obtain ⟨hhead, htail⟩ := hchain
              refine ⟨?_, ih op' htail fun q hq =>
                hle q (List.mem_cons_of_mem p hq)⟩
              intro y hy
              rcases pollProgressTrace_head op' rest y hy with rfl | hfirst
              · exact hle p (List.mem_cons_self p _)
              · exact hhead y hfirst

/-- Witness for the amended monotonicity theorem: a vendor reporting 30
then 60 and then done yields the non-decreasing surfaced sequence
[30, 60, 100]. -/
theorem pollProgress_monotone_witness :
    List.Chain' (fun a b => a ≤ b)
      (pollProgressTrace ⟨false, none, none⟩
        [.ok ⟨false, some 30, none⟩, .ok ⟨true, some 60, none⟩]) := by
  have hv : vendorProgressValues
      ([.ok ⟨false, some 30, none⟩, .ok ⟨true, some 60, none⟩] :
        List PollResp) = [30, 60] := rfl
  refine pollProgress_monotone_of_vendor_monotone _ _ ?_ ?_ <;> rw [hv]
  · simp [List.chain'_cons]
  · decide

/-! Auxiliary facts for the grounding-source deduplication proof. -/

lemma nat_succ_beq (a b : Nat) : ((a + 1 : Nat) == (b + 1)) = (a == b) := by
  cases h : a == b
  · rw [beq_eq_false_iff_ne] at h ⊢
    omega
  · rw [beq_iff_eq] at h ⊢
    omega

lemma nat_zero_beq_succ (b : Nat) : ((0 : Nat) == (b + 1)) = false := by
  rw [beq_eq_false_iff_ne]
  omega

lemma string_beq_comm (a b : String) : (a == b) = (b == a) := by
  cases hab : a == b
  · cases hba : b == a
    · rfl
    · exact absurd (eq_of_beq hba).symm (ne_of_beq_false hab)
  · cases hba : b == a
    · exact absurd (eq_of_beq hab).symm (ne_of_beq_false hba)
    · rfl

lemma string_bne_comm (a b : String) : (a != b) = (b != a) := by
  simp only [bne, string_beq_comm]

/-- A source whose uri avoids every uri in `ex`. -/
def notExcluded (ex : List String) (s : GroundingSource) : Bool :=
  ex.all (fun u => u != s.uri)

lemma notExcluded_nil (s : GroundingSource) : notExcluded [] s = true := rfl

lemma notExcluded_cons (u : String) (ex : List String) (s : GroundingSource) :
    notExcluded (u :: ex) s = ((u != s.uri) && notExcluded ex s) := rfl

lemma notExcluded_mem_cons {u : String} {ex : List String} (h : u ∈ ex)
    (t : GroundingSource) : notExcluded (u :: ex) t = notExcluded ex t := by
  rw [notExcluded_cons]
  cases hne : notExcluded ex t
  · simp
  · simp only [Bool.and_true]
    exact List.all_eq_true.mp hne u h

lemma findIdx_uri_self (s : GroundingSource) (rest : List GroundingSource) :
    (((s :: rest).findIdx (fun x => x.uri == s.uri)) == 0) = true := by
  rw [List.findIdx_cons]
  simp

lemma findIdx_uri_cons (s t : GroundingSource) (rest : List GroundingSource)
    (i : Nat) :
    (((s :: rest).findIdx (fun x => x.uri == t.uri)) == (i + 1)) =
      ((s.uri != t.uri) && ((rest.findIdx (fun x => x.uri == t.uri)) == i)) := by
  rw [List.findIdx_cons]
  cases h : s.uri == t.uri
  · simp only [h, Bool.cond_false, bne, Bool.not_false, Bool.true_and,
      nat_succ_beq]
  · simp only [h, Bool.cond_true, bne, Bool.not_true, Bool.false_and,
      nat_zero_beq_succ]

lemma dedupFirstByUri_cons (s : GroundingSource) (l : List GroundingSource) :
    dedupFirstByUri (s :: l) =
      s :: dedupFirstByUri (l.filter (fun t => t.uri != s.uri)) := by
  rw [dedupFirstByUri]

/-- The JS index-based dedup filter, restricted to sources avoiding an
excluded uri set, computes the first-occurrence dedup of the filtered
list. -/
lemma jsDedup_aux (l : List GroundingSource) :
    ∀ ex : List String,
      ((l.enum.filter (fun p => notExcluded ex p.2 &&
          (l.findIdx (fun t => t.uri == p.2.uri) == p.1))).map Prod.snd)
        = dedupFirstByUri (l.filter (notExcluded ex)) := by
  induction l with
  | nil => intro ex; simp [dedupFirstByUri]
  | cons s rest ih =>
      intro ex
      have hsnd : (Prod.snd ∘
          (Prod.map (· + 1) id : Nat × GroundingSource → Nat × GroundingSource)) =
          Prod.snd := by
        funext p
        rcases p with ⟨i, t⟩
        simp [Prod.map]
      have hfun : ((fun p : Nat × GroundingSource => notExcluded ex p.2 &&
            ((s :: rest).findIdx (fun t => t.uri == p.2.uri) == p.1)) ∘
              (Prod.map (· + 1) id)) =
          (fun p : Nat × GroundingSource => notExcluded (s.uri :: ex) p.2 &&
            (rest.findIdx (fun t => t.uri == p.2.uri) == p.1)) := by
        funext p
        rcases p with ⟨i, t⟩
        simp only [Function.comp_apply, Prod.map_apply, id_eq]
        rw [findIdx_uri_cons, notExcluded_cons]
        cases notExcluded ex t <;> cases h2 : s.uri != t.uri <;> simp
      rw [List.enum_cons', List.filter_cons, List.filter_map, hfun]
      cases hs : notExcluded ex s with
      | true =>
          rw [if_pos (by simp [findIdx_uri_self])]
          rw [List.map_cons, List.map_map, hsnd, ih (s.uri :: ex)]
          rw [List.filter_cons, if_pos hs, dedupFirstByUri_cons,
            List.filter_filter]
          have hf : (fun a : GroundingSource =>
              (a.uri != s.uri) && notExcluded ex a) =
              notExcluded (s.uri :: ex) := by
            funext a
            rw [notExcluded_cons, string_bne_comm]
          rw [hf]
      | false =>
          rw [if_neg (by simp)]
          have hmem : s.uri ∈ ex := by
            have hs' := hs
            unfold notExcluded at hs'
            rw [List.all_eq_false] at hs'
            obtain ⟨x, hx, hxs⟩ := hs'
            have hxeq : x = s.uri := by
              by_contra hne
              exact hxs (by simp [bne_iff_ne, hne])
            rwa [hxeq] at hx
          have hfun2 : (fun p : Nat × GroundingSource =>
              notExcluded (s.uri :: ex) p.2 &&
                (rest.findIdx (fun t => t.uri == p.2.uri) == p.1)) =
              (fun p : Nat × GroundingSource => notExcluded ex p.2 &&
                (rest.findIdx (fun t => t.uri == p.2.uri) == p.1)) := by
            funext p
            rw [notExcluded_mem_cons hmem]
          rw [hfun2, List.map_map, hsnd, ih ex, List.filter_cons,
            if_neg (by simp [hs])]

/-- C6: the grounding sources returned by `generateGroundedContent` are
deduplicated by URI, keeping each URI's first occurrence (and its title) in
order of first appearance; in particular sources a/A1, b/B, a/A2 yield
exactly the two entries a/A1 and b/B in that order. -/
theorem groundingSources_dedup_by_first_uri :
    (∀ l : List GroundingSource, jsDedupByUri l = dedupFirstByUri l) ∧
    groundingSources
        [⟨some ⟨"a", some ("A1")⟩⟩, ⟨some ⟨"b", some ("B")⟩⟩,
          ⟨some ⟨"a", some ("A2")⟩⟩] =
      [⟨"a", "A1"⟩, ⟨"b", "B"⟩] := by
  constructor
  · intro l
    have h := jsDedup_aux l []
    have h2 : (fun p : Nat × GroundingSource => notExcluded [] p.2 &&
        (l.findIdx (fun t => t.uri == p.2.uri) == p.1)) =
        (fun p : Nat × GroundingSource =>
          l.findIdx (fun t => t.uri == p.2.uri) == p.1) := by
      funext p
      rw [notExcluded_nil, Bool.true_and]
    have h3 : l.filter (notExcluded []) = l := by
      have : ∀ a ∈ l, notExcluded [] a = true := fun a _ => notExcluded_nil a
      exact List.filter_eq_self.mpr this
    rw [h2, h3] at h
    exact h
  · decide

/-! Auxiliary facts for `chunkText`. -/

lemma jsTrim_length_le (s : List Char) : (jsTrim s).length ≤ s.length := by
  unfold jsTrim
  have h1 : ((s.dropWhile Char.isWhitespace).reverse.dropWhile
      Char.isWhitespace).length ≤ (s.dropWhile Char.isWhitespace).reverse.length :=
    (List.dropWhile_sublist _).length_le
  have h2 : (s.dropWhile Char.isWhitespace).length ≤ s.length :=
    (List.dropWhile_sublist _).length_le
  rw [List.length_reverse]
  rw [List.length_reverse] at h1
  exact h1.trans h2

lemma jsLastIndexOf_le_length {s pat : List Char} {i : Nat}
    (h : jsLastIndexOf s pat = some i) : i ≤ s.length := by
  unfold jsLastIndexOf at h
  have hmem := List.mem_of_find?_eq_some h
  rw [List.mem_reverse, List.mem_range] at hmem
  omega

lemma orElse_eq_some {α : Type} {a b c : Option α} {x : α}
    (h : (a <|> b <|> c) = some x) :
    a = some x ∨ b = some x ∨ c = some x := by
  rcases a with _ | va
  · rcases b with _ | vb
    · exact Or.inr (Or.inr (by simpa using h))
    · exact Or.inr (Or.inl (by simpa using h))
  · exact Or.inl (by simpa using h)

lemma splitIndexOf_le {maxLength : Nat} {chunk : List Char}
    (h : chunk.length ≤ maxLength) : splitIndexOf maxLength chunk ≤ maxLength := by
  unfold splitIndexOf
  cases hfind : (jsLastIndexOf chunk ['\n', '\n'] <|>
      jsLastIndexOf chunk ['.', ' '] <|> jsLastIndexOf chunk [' ']) with
  | none => simp
  | some i =>
      by_cases h2 : 2 * i < maxLength
      · simp [h2]
      · simp only [h2, if_false]
        have hi : i ≤ chunk.length := by
          rcases orElse_eq_some hfind with h3 | h3 | h3 <;>
            exact jsLastIndexOf_le_length h3
        omega

lemma chunkTextLoop_length_le (maxLength : Nat) :
    ∀ (fuel : Nat) (remaining : List Char),
      ∀ c ∈ chunkTextLoop maxLength fuel remaining,
        c.length ≤ maxLength + 1 := by
  intro fuel
  induction fuel with
  | zero =>
      intro remaining c hc
      simp [chunkTextLoop] at hc
  | succ fuel ih =>
      intro remaining c hc
      rw [chunkTextLoop] at hc
      by_cases h0 : remaining.length = 0
      · rw [if_pos h0] at hc
        simp at hc
      · rw [if_neg h0] at hc
        by_cases hle : remaining.length ≤ maxLength
        · rw [if_pos hle] at hc
          simp only [List.mem_singleton] at hc
          subst hc
          omega
        · rw [if_neg hle] at hc
          simp only [List.mem_cons] at hc
          rcases hc with hc | hc
          · subst hc
            have h1 : (remaining.take maxLength).length ≤ maxLength := by
              simp [List.length_take]
            have h2 := splitIndexOf_le h1
            have h3 : (remaining.take
                (splitIndexOf maxLength (remaining.take maxLength) + 1)).length ≤
                splitIndexOf maxLength (remaining.take maxLength) + 1 := by
              simp [List.length_take]
            have h4 := jsTrim_length_le (remaining.take
              (splitIndexOf maxLength (remaining.take maxLength) + 1))
            omega
          · exact ih _ c hc

lemma chunkTextLoop_fuel_irrel (maxLength : Nat) :
    ∀ (f1 : Nat) (remaining : List Char) (f2 : Nat),
      remaining.length ≤ f1 → remaining.length ≤ f2 →
      chunkTextLoop maxLength f1 remaining = chunkTextLoop maxLength f2 remaining := by
  intro f1
  induction f1 with
  | zero =>
      intro remaining f2 h1 h2
      obtain rfl : remaining = [] :=
        List.length_eq_zero.mp (Nat.le_zero.mp h1)
      cases f2 <;> simp [chunkTextLoop]
  | succ f1 ih =>
      intro remaining f2 h1 h2
      cases f2 with
      | zero =>
          obtain rfl : remaining = [] :=
            List.length_eq_zero.mp (Nat.le_zero.mp h2)
          simp [chunkTextLoop]
      | succ f2 =>
          rw [chunkTextLoop, chunkTextLoop]
          by_cases h0 : remaining.length = 0
          · rw [if_pos h0, if_pos h0]
          · rw [if_neg h0, if_neg h0]
            by_cases hle : remaining.length ≤ maxLength
            · rw [if_pos hle, if_pos hle]
            · rw [if_neg hle, if_neg hle]
              dsimp only
              have hrest : (jsTrim (remaining.drop
                  (splitIndexOf maxLength (remaining.take maxLength) + 1))).length <
                  remaining.length := by
                have hd : (remaining.drop
                    (splitIndexOf maxLength (remaining.take maxLength) + 1)).length =
                    remaining.length -
                      (splitIndexOf maxLength (remaining.take maxLength) + 1) := by
                  simp [List.length_drop]
                have ht := jsTrim_length_le (remaining.drop
                  (splitIndexOf maxLength (remaining.take maxLength) + 1))
                omega
              congr 1
              exact ih (jsTrim (remaining.drop
                  (splitIndexOf maxLength (remaining.take maxLength) + 1)))
                f2 (by omega) (by omega)

/-- C10 counterexample: with maxLength = 1 the input "abc" has no split
point, so the loop falls back to `splitIndex = maxLength` and pushes
`substring(0, maxLength + 1)` -- the chunk "ab" has length 2 > 1. -/
theorem chunkText_bound_counterexample :
    chunkText ['a', 'b', 'c'] 1 = [['a', 'b'], ['c']] ∧
    ¬ (∀ c ∈ chunkText ['a', 'b', 'c'] 1, c.length ≤ 1) := by
  constructor
  · decide
  · decide

/-- C10 amended: for every input and every maxLength of at least 1,
`chunkText` terminates (the loop's result is independent of any fuel of at
least the input's length, each iteration consuming at least one character)
and returns chunks that are all non-empty and of length at most
maxLength + 1 (the fall-back split pushes `substring(0, splitIndex + 1)`
with `splitIndex = maxLength`, so the bound maxLength is exceeded by one
character on inputs without a usable split point). -/
theorem chunkText_chunks_bound (text : List Char) (maxLength : Nat)
    (_hmax : 1 ≤ maxLength) :
    (∀ c ∈ chunkText text maxLength, 0 < c.length ∧ c.length ≤ maxLength + 1) ∧
    (∀ fuel, text.length ≤ fuel →
        chunkTextLoop maxLength fuel text = chunkTextLoop maxLength text.length text) := by
  constructor
  · intro c hc
    unfold chunkText at hc
    by_cases h0 : text.length = 0
    · rw [if_pos h0] at hc
      simp at hc
    · rw [if_neg h0] at hc
      rw [List.mem_filter] at hc
      obtain ⟨hmem, hpos⟩ := hc
      exact ⟨of_decide_eq_true hpos, chunkTextLoop_length_le maxLength _ _ c hmem⟩
  · intro fuel hf
    exact chunkTextLoop_fuel_irrel maxLength fuel text text.length hf le_rfl

/-- Witness for the amended chunking theorem: at the default maxLength 7000
the two-character input "hi" yields chunks within the bounds. -/
theorem chunkText_chunks_bound_witness :
    (1 ≤ 7000) ∧
    ∀ c ∈ chunkText ['h', 'i'] 7000, 0 < c.length ∧ c.length ≤ 7000 + 1 :=
  ⟨by omega, (chunkText_chunks_bound ['h', 'i'] 7000 (by omega)).1⟩

end SimpleAI
